import Mathlib

/-!
Verification of the kes secret-store layer: the `Ciphertext` codec
(`internal/secret`), the filesystem `KeyStore` (`internal/fs`) and the
in-memory `KeyStore` (`internal/mem`), together with models of the
collaborators they use (the `Secret` type, the cache engine and the KMS
capability).  Machine integers do not occur; Go strings are modelled as
Lean strings and byte slices as lists of naturals below 256.
-/

namespace Kes

/-! ### Base64

Models Go's `encoding/base64` `StdEncoding` as used by `encoding/json`
for `[]byte` fields: padded std alphabet, `\r`/`\n` skipped, `=` only as
final padding, no check of leftover bits (non-strict decoding). -/

def b64chr (n : Nat) : Char :=
  if n < 26 then Char.ofNat (65 + n)
  else if n < 52 then Char.ofNat (97 + (n - 26))
  else if n < 62 then Char.ofNat (48 + (n - 52))
  else if n = 62 then '+'
  else '/'

def b64idx (c : Char) : Option Nat :=
  if 'A' ≤ c ∧ c ≤ 'Z' then some (c.toNat - 65)
  else if 'a' ≤ c ∧ c ≤ 'z' then some (c.toNat - 97 + 26)
  else if '0' ≤ c ∧ c ≤ '9' then some (c.toNat - 48 + 52)
  else if c = '+' then some 62
  else if c = '/' then some 63
  else none

def b64encode : List Nat → List Char
  | b0 :: b1 :: b2 :: rest =>
      b64chr (b0 / 4) :: b64chr ((b0 % 4) * 16 + b1 / 16) ::
      b64chr ((b1 % 16) * 4 + b2 / 64) :: b64chr (b2 % 64) :: b64encode rest
  | [b0, b1] => [b64chr (b0 / 4), b64chr ((b0 % 4) * 16 + b1 / 16), b64chr ((b1 % 16) * 4), '=']
  | [b0] => [b64chr (b0 / 4), b64chr ((b0 % 4) * 16), '=', '=']
  | [] => []

def b64decodeCore : List Char → Option (List Nat)
  | [] => some []
  | c0 :: c1 :: c2 :: c3 :: rest =>
      match b64idx c0, b64idx c1 with
      | some s0, some s1 =>
          if c2 = '=' then
            if c3 = '=' ∧ rest = [] then some [s0 * 4 + s1 / 16] else none
          else
            match b64idx c2 with
            | some s2 =>
                if c3 = '=' then
                  if rest = [] then some [s0 * 4 + s1 / 16, (s1 % 16) * 16 + s2 / 4] else none
                else
                  match b64idx c3 with
                  | some s3 =>
                      (b64decodeCore rest).map
                        (fun bs => (s0 * 4 + s1 / 16) :: ((s1 % 16) * 16 + s2 / 4) ::
                                   ((s2 % 4) * 64 + s3) :: bs)
                  | none => none
            | none => none
      | _, _ => none
  | _ => none

/-- Go's base64 decoder skips carriage returns and newlines before decoding. -/
def b64decodeGo (s : List Char) : Option (List Nat) :=
  b64decodeCore (s.filter (fun c => !(c == '\r' || c == '\n')))

/-! ### JSON scanning

Models the part of Go's `encoding/json` exercised by
`Ciphertext.ReadFrom`: one top-level value (trailing data after the value
is not consumed and not an error), an object with string-typed fields,
case-insensitive field-name matching, `DisallowUnknownFields`, and JSON
string literals with the standard escapes (including `\uXXXX` with
surrogate-pair combination and `U+FFFD` for lone surrogates). -/

def isWsChar (c : Char) : Bool :=
  c == ' ' || c == '\t' || c == '\n' || c == '\r'

def skipWs : List Char → List Char
  | [] => []
  | c :: rest => if isWsChar c then skipWs rest else c :: rest

def hexDigit (c : Char) : Option Nat :=
  if '0' ≤ c ∧ c ≤ '9' then some (c.toNat - 48)
  else if 'a' ≤ c ∧ c ≤ 'f' then some (c.toNat - 97 + 10)
  else if 'A' ≤ c ∧ c ≤ 'F' then some (c.toNat - 65 + 10)
  else none

/-- The single-character escapes of JSON string literals. -/
def escChar (c : Char) : Option Nat :=
  if c = '"' then some 34
  else if c = '\\' then some 92
  else if c = '/' then some 47
  else if c = 'b' then some 8
  else if c = 'f' then some 12
  else if c = 'n' then some 10
  else if c = 'r' then some 13
  else if c = 't' then some 9
  else none

/-- Scanner state inside a JSON string literal: plain characters,
after a backslash, or inside a `\u` escape with `p` hex digits missing. -/
inductive StrState where
  | normal : StrState
  | escaped : StrState
  | hex : Nat → Nat → StrState

/-- Scans a JSON string literal (the opening quote already consumed) and
returns the code points of its contents, `\u` escapes still unpaired,
together with the input after the closing quote. -/
def runStr : StrState → List Char → Option (List Nat × List Char)
  | _, [] => none
  | .normal, c :: rest =>
      if c = '"' then some ([], rest)
      else if c = '\\' then runStr .escaped rest
      else if c.toNat < 32 then none
      else (runStr .normal rest).map (fun p => (c.toNat :: p.1, p.2))
  | .escaped, c :: rest =>
      if c = 'u' then runStr (.hex 4 0) rest
      else
        match escChar c with
        | some n => (runStr .normal rest).map (fun p => (n :: p.1, p.2))
        | none => none
  | .hex 1 acc, c :: rest =>
      match hexDigit c with
      | some d => (runStr .normal rest).map (fun p => ((acc * 16 + d) :: p.1, p.2))
      | none => none
  | .hex (p + 2) acc, c :: rest =>
      match hexDigit c with
      | some d => runStr (.hex (p + 1) (acc * 16 + d)) rest
      | none => none
  | .hex 0 _, _ :: _ => none

def isHighSur (n : Nat) : Bool := 55296 ≤ n && n < 56320

def isLowSur (n : Nat) : Bool := 56320 ≤ n && n < 57344

/-- One-pass surrogate fixing, carrying a pending high surrogate. -/
def fixSurAux : Option Nat → List Nat → List Nat
  | none, [] => []
  | some _, [] => [65533]
  | none, n :: rest =>
      if isHighSur n then fixSurAux (some n) rest
      else if isLowSur n then 65533 :: fixSurAux none rest
      else n :: fixSurAux none rest
  | some hi, n :: rest =>
      if isLowSur n then (65536 + (hi - 55296) * 1024 + (n - 56320)) :: fixSurAux none rest
      else if isHighSur n then 65533 :: fixSurAux (some n) rest
      else 65533 :: n :: fixSurAux none rest

/-- Combines surrogate pairs produced by `\u` escapes and replaces lone
surrogates with `U+FFFD`, as Go's JSON decoder does. -/
def fixSurrogates (ns : List Nat) : List Nat := fixSurAux none ns

def charFromCp (n : Nat) : Char := Char.ofNat n

def strFromCps (ns : List Nat) : String := String.mk (ns.map charFromCp)

/-- Parses a JSON string literal (opening quote already consumed),
returning its decoded value and the rest of the input. -/
def parseJString (s : List Char) : Option (String × List Char) :=
  (runStr .normal s).map (fun p => (strFromCps (fixSurrogates p.1), p.2))

/-- ASCII lower-casing; models the case-insensitive field-name match of
Go's `encoding/json`. -/
def lowerChar (c : Char) : Char :=
  if 'A' ≤ c ∧ c ≤ 'Z' then Char.ofNat (c.toNat + 32) else c

def lowerAscii (s : String) : String := String.mk (s.data.map lowerChar)

/-! ### Errors

The Go error values the claims distinguish.  `kes.ErrKeyExists`,
`kes.ErrKeyNotFound` and `kes.ErrKeySealed` are the package sentinels;
`malformedCiphertext` is the value built by
`errors.New ("ciphertext is malformed")` in `Ciphertext.ReadFrom`;
`malformedSecret` is the parse error of the (spec-modelled) `Secret`
codec; `errMsg` stands for any other error value. -/

inductive GoError where
  | keyExists : GoError
  | keyNotFound : GoError
  | keySealed : GoError
  | malformedCiphertext : GoError
  | malformedSecret : GoError
  | errMsg : String → GoError
deriving DecidableEq

/-! ### Ciphertext (internal/secret, `part_001`) -/

/-- `Ciphertext` from `internal/secret`: the name of the key at the KMS
and the encrypted secret bytes. -/
structure Ciphertext where
  Key : String
  Bytes : List Nat
deriving DecidableEq

/-- The character sequence produced by `Ciphertext.String`:
`fmt.Sprintf` splices the key unescaped between the fixed JSON
punctuation and base64-encodes the bytes. -/
def serializeData (c : Ciphertext) : List Char :=
  ['\x7b', '"', 'k', 'e', 'y', '"', ':', '"'] ++ c.Key.data ++
    ['"', ',', '"', 'b', 'y', 't', 'e', 's', '"', ':', '"'] ++
    b64encode c.Bytes ++ ['"', '\x7d']

/-- `Ciphertext.String`. -/
def Ciphertext.string (c : Ciphertext) : String := String.mk (serializeData c)

/-- Decodes one object member value into the struct: field names are
matched case-insensitively against `key` and `bytes`, a `null` value
leaves the struct untouched, `bytes` values must be valid base64, and
any other field name is an error (`DisallowUnknownFields`). -/
def parseFieldValue (c : Ciphertext) (nm : String) (s : List Char) :
    Option (Ciphertext × List Char) :=
  if lowerAscii nm = "key" then
    match skipWs s with
    | '"' :: rest => (parseJString rest).map (fun p => ({ c with Key := p.1 }, p.2))
    | 'n' :: 'u' :: 'l' :: 'l' :: rest => some (c, rest)
    | _ => none
  else if lowerAscii nm = "bytes" then
    match skipWs s with
    | '"' :: rest =>
        match parseJString rest with
        | none => none
        | some (v, rest1) =>
            match b64decodeGo v.data with
            | none => none
            | some bs => some ({ c with Bytes := bs }, rest1)
    | 'n' :: 'u' :: 'l' :: 'l' :: rest => some (c, rest)
    | _ => none
  else none

/-- Decodes the members of a non-empty object, starting after the
opening brace; duplicated fields overwrite (last one wins).  The fuel
only bounds the number of members; callers pass the input length, which
certainly suffices since every member consumes characters. -/
def parseMembers : Nat → Ciphertext → List Char → Option (Ciphertext × List Char)
  | 0, _, _ => none
  | fuel + 1, acc, s =>
      match skipWs s with
      | '"' :: rest =>
          match parseJString rest with
          | none => none
          | some (nm, rest1) =>
              match skipWs rest1 with
              | ':' :: rest2 =>
                  match parseFieldValue acc nm rest2 with
                  | none => none
                  | some (acc1, rest3) =>
                      match skipWs rest3 with
                      | ',' :: rest4 => parseMembers fuel acc1 rest4
                      | '\x7d' :: rest4 => some (acc1, rest4)
                      | _ => none
              | _ => none
      | _ => none

/-- Models `json.Decoder.Decode` into a fresh `Ciphertext`: decodes the
first JSON value of the input (an object or `null`; anything else is a
type error) and leaves trailing data unread. -/
def decodeCiphertext (t : List Char) : Option Ciphertext :=
  match skipWs t with
  | '\x7b' :: rest =>
      match skipWs rest with
      | '\x7d' :: _ => some ⟨"", []⟩
      | _ => (parseMembers (rest.length + 1) ⟨"", []⟩ rest).map Prod.fst
  | 'n' :: 'u' :: 'l' :: 'l' :: _ => some ⟨"", []⟩
  | _ => none

/-- `MaxSize` from `Ciphertext.ReadFrom`: 10 MiB. -/
def maxCiphertextSize : Nat := 10 * 1048576

/-- `Ciphertext.ReadFrom`: the `io.LimitedReader` truncates the input to
`MaxSize`, any decode failure becomes the one generic
"ciphertext is malformed" error, and a decoded ciphertext whose key is
empty is rejected with the same error.  The byte count returned by the
Go method plays no role in the claims and is not modelled. -/
def ciphertextReadFrom (s : List Char) : Except GoError Ciphertext :=
  match decodeCiphertext (s.take maxCiphertextSize) with
  | none => .error .malformedCiphertext
  | some c => if c.Key = "" then .error .malformedCiphertext else .ok c

/-! ### Secret

Modelled from the spec: the `Secret` type of `internal/secret` is not
under `src/` (only its uses are).  Per §3 of the spec it is opaque byte
material, equal by byte content, with a canonical reversible text
encoding and the empty secret as zero value; base64 is used as the
reversible encoding. -/

structure Secret where
  bytes : List Nat
deriving DecidableEq

def Secret.zero : Secret := ⟨[]⟩

/-- Modelled from the spec: the canonical string form of a secret
(`Secret.String`, also what `Secret.WriteTo` writes). -/
def Secret.string (s : Secret) : String := String.mk (b64encode s.bytes)

/-- Modelled from the spec: parsing the canonical string form
(`Secret.ParseString` / `Secret.ReadFrom`); the encoding is reversible
and rejects malformed text. -/
def Secret.parseString (s : String) : Except GoError Secret :=
  match b64decodeGo s.data with
  | some bs => .ok ⟨bs⟩
  | none => .error .malformedSecret

/-! ### Cache engine

Modelled from the spec: `internal/cache` is not under `src/`.  Per §4.1
it is a mapping from name to secret with `Get`, `Set` (unconditional
insert), `Add` (insert only if absent, returning the now-canonical
entry) and `Delete` (no-op when absent).  The GC sweeps only ever remove
entries; the timestamps they consult play no role in the claims, so an
entry is just a name/secret pair and eviction is modelled as removal. -/

structure Cache where
  entries : List (String × Secret)
deriving DecidableEq

def Cache.get (c : Cache) (n : String) : Option Secret :=
  (c.entries.find? (fun e => e.1 == n)).map Prod.snd

def Cache.set (c : Cache) (n : String) (s : Secret) : Cache :=
  ⟨(n, s) :: c.entries.filter (fun e => !(e.1 == n))⟩

def Cache.del (c : Cache) (n : String) : Cache :=
  ⟨c.entries.filter (fun e => !(e.1 == n))⟩

/-- `Add` returns the entry now in the cache and whether it inserted. -/
def Cache.add (c : Cache) (n : String) (s : Secret) : Secret × Bool × Cache :=
  match c.get n with
  | some old => (old, false, c)
  | none => (s, true, ⟨(n, s) :: c.entries⟩)

/-! ### KMS capability -/

/-- The `secret.KMS` interface: an encrypt and a decrypt capability,
each of which may fail with an arbitrary error. -/
structure KMSModel where
  encrypt : String → Secret → Except GoError Ciphertext
  decrypt : Ciphertext → Except GoError Secret

/-! ### In-memory KeyStore (`internal/mem`, `part_002`) -/

/-- The in-memory `KeyStore`: cache, backing `map[string]string`, and
the optional KMS with its key name.  Durations, logger and the lazy
`sync.Once` initialisation (the model starts from an initialised empty
map) carry no claim-relevant state. -/
structure MemStore where
  Key : String
  KMS : Option KMSModel
  cache : Cache
  store : List (String × String)

def mapGet (m : List (String × String)) (n : String) : Option String :=
  (m.find? (fun e => e.1 == n)).map Prod.snd

def mapSet (m : List (String × String)) (n : String) (v : String) :
    List (String × String) :=
  (n, v) :: m.filter (fun e => !(e.1 == n))

def mapDel (m : List (String × String)) (n : String) : List (String × String) :=
  m.filter (fun e => !(e.1 == n))

/-- `mem.KeyStore.Create`: cache pre-check, optional encryption (an
encryption failure is returned as-is), backend existence check, then the
write of the serialized content together with `cache.Set`. -/
def MemStore.create (st : MemStore) (name : String) (sec : Secret) :
    MemStore × Option GoError :=
  match st.cache.get name with
  | some _ => (st, some .keyExists)
  | none =>
      match st.KMS with
      | none =>
          match mapGet st.store name with
          | some _ => (st, some .keyExists)
          | none =>
              ({ st with cache := st.cache.set name sec,
                         store := mapSet st.store name (Secret.string sec) }, none)
      | some K =>
          match K.encrypt st.Key sec with
          | .error e => (st, some e)
          | .ok ct =>
              match mapGet st.store name with
              | some _ => (st, some .keyExists)
              | none =>
                  ({ st with cache := st.cache.set name sec,
                             store := mapSet st.store name (Ciphertext.string ct) }, none)

/-- `mem.KeyStore.Delete`: purge the cache entry and the map entry;
always succeeds. -/
def MemStore.delete (st : MemStore) (name : String) : MemStore × Option GoError :=
  ({ st with cache := st.cache.del name, store := mapDel st.store name }, none)

/-- `mem.KeyStore.Get`: cache hit returns immediately; otherwise the map
entry is parsed as a plaintext secret (no KMS; parse errors propagate)
or as a ciphertext that is then decrypted (both failures map to
`ErrKeySealed`), and the result is put into the cache with `Set`. -/
def MemStore.get (st : MemStore) (name : String) : MemStore × Except GoError Secret :=
  match st.cache.get name with
  | some sec => (st, .ok sec)
  | none =>
      match mapGet st.store name with
      | none => (st, .error .keyNotFound)
      | some s =>
          match st.KMS with
          | none =>
              match Secret.parseString s with
              | .error e => (st, .error e)
              | .ok sec => ({ st with cache := st.cache.set name sec }, .ok sec)
          | some K =>
              match ciphertextReadFrom s.data with
              | .error _ => (st, .error .keySealed)
              | .ok ct =>
                  match K.decrypt ct with
                  | .error _ => (st, .error .keySealed)
                  | .ok sec => ({ st with cache := st.cache.set name sec }, .ok sec)

/-! ### Filesystem KeyStore (`internal/fs`) -/

/-- The filesystem `KeyStore`: the directory is the map from file name
to file content. -/
structure FsStore where
  Key : String
  KMS : Option KMSModel
  cache : Cache
  files : List (String × String)

/-- Fault injection for the file-system primitives used by `Create` and
`Delete`: `writeErr` makes `content.WriteTo(file)` fail, `syncErr` makes
`file.Sync()` fail, and `removeFails` makes `os.Remove` of an existing
file fail. -/
structure FsFaults where
  writeErr : Option GoError
  syncErr : Option GoError
  removeFails : Bool

def noFaults : FsFaults := ⟨none, none, false⟩

/-- `fs.KeyStore.Create`: cache pre-check, optional encryption, then an
exclusive `O_CREATE|O_EXCL` open (an existing file yields
`ErrKeyExists`).  A failing write or sync rolls the file back with
`os.Remove` and returns the original error; a failure of that removal is
only logged, leaving the partially written file behind (on a failed
write its content is unspecified, modelled as empty). -/
def FsStore.create (faults : FsFaults) (st : FsStore) (name : String)
    (sec : Secret) : FsStore × Option GoError :=
  match st.cache.get name with
  | some _ => (st, some .keyExists)
  | none =>
      match (match st.KMS with
             | none => .ok (Secret.string sec)
             | some K => (K.encrypt st.Key sec).map Ciphertext.string :
              Except GoError String) with
      | .error e => (st, some e)
      | .ok content =>
          match mapGet st.files name with
          | some _ => (st, some .keyExists)
          | none =>
              match faults.writeErr with
              | some e =>
                  if faults.removeFails then
                    ({ st with files := mapSet st.files name "" }, some e)
                  else (st, some e)
              | none =>
                  match faults.syncErr with
                  | some e =>
                      if faults.removeFails then
                        ({ st with files := mapSet st.files name content }, some e)
                      else (st, some e)
                  | none =>
                      ({ st with cache := st.cache.set name sec,
                                 files := mapSet st.files name content }, none)

/-- `fs.KeyStore.Delete`: `os.Remove` with a not-exist error ignored;
the cache entry is purged even when the removal fails. -/
def FsStore.delete (faults : FsFaults) (st : FsStore) (name : String) :
    FsStore × Option GoError :=
  match mapGet st.files name with
  | none => ({ st with cache := st.cache.del name }, none)
  | some _ =>
      if faults.removeFails then
        ({ st with cache := st.cache.del name }, some (.errMsg "remove failed"))
      else
        ({ st with cache := st.cache.del name, files := mapDel st.files name }, none)

/-- `fs.KeyStore.Get`: cache hit returns immediately; a missing file is
`ErrKeyNotFound`.  Without a KMS the file is parsed into the outer `sec`
variable.  With a KMS, `sec, err := store.KMS.Decrypt(ciphertext)` uses
`:=` inside the `else` block and so declares a new `sec` that shadows
the outer one: on the success path the decrypted secret never reaches
the outer `sec`, and the zero-valued outer secret is what `cache.Add`
stores and `Get` returns.  The model reproduces that shadowing. -/
def FsStore.get (st : FsStore) (name : String) : FsStore × Except GoError Secret :=
  match st.cache.get name with
  | some sec => (st, .ok sec)
  | none =>
      match mapGet st.files name with
      | none => (st, .error .keyNotFound)
      | some s =>
          match st.KMS with
          | none =>
              match Secret.parseString s with
              | .error e => (st, .error e)
              | .ok sec =>
                  match st.cache.add name sec with
                  | (res, _, cache1) => ({ st with cache := cache1 }, .ok res)
          | some K =>
              match ciphertextReadFrom s.data with
              | .error _ => (st, .error .keySealed)
              | .ok ct =>
                  match K.decrypt ct with
                  | .error _ => (st, .error .keySealed)
                  | .ok _shadowed =>
                      match st.cache.add name Secret.zero with
                      | (res, _, cache1) => ({ st with cache := cache1 }, .ok res)

/-- The backend-derivation of a secret that the cache-consistency
invariant of the spec (§3, "KeyStore") refers to: re-read the backend
entry and re-decrypt it when a KMS is configured.  This definition
follows the spec's words and is compared against what the code caches. -/
def fsDerive (st : FsStore) (name : String) : Except GoError Secret :=
  match mapGet st.files name with
  | none => .error .keyNotFound
  | some s =>
      match st.KMS with
      | none => Secret.parseString s
      | some K =>
          match ciphertextReadFrom s.data with
          | .error _ => .error .keySealed
          | .ok ct => K.decrypt ct

/-! ### Shared concrete scenario and auxiliary definitions -/

/-- A stub KMS whose `Decrypt` inverts its `Encrypt`: the ciphertext
carries the secret bytes unchanged, as the spec's end-to-end scenario
permits for a deterministic stub. -/
def stubKMS : KMSModel :=
  { encrypt := fun k s => .ok ⟨k, s.bytes⟩
    decrypt := fun ct => .ok ⟨ct.Bytes⟩ }

/-- An empty filesystem store configured for envelope encryption with
the stub KMS under key reference `master-1`. -/
def fsKmsStore : FsStore :=
  { Key := "master-1", KMS := some stubKMS, cache := ⟨[]⟩, files := [] }

/-- `Create("db-key", ⟨[1,2,3]⟩)` on the empty encrypted store. -/
def fsAfterCreate : FsStore × Option GoError :=
  FsStore.create noFaults fsKmsStore "db-key" ⟨[1, 2, 3]⟩

/-- The store after the cache entry for `db-key` was evicted (a GC sweep
is modelled as removal), so the next `Get` must read the backend. -/
def fsEvicted : FsStore :=
  { fsAfterCreate.1 with cache := fsAfterCreate.1.cache.del "db-key" }

/-- The cache-missing `Get("db-key")` on the evicted store. -/
def fsAfterGet : FsStore × Except GoError Secret := FsStore.get fsEvicted "db-key"

/-- Encryption does not fail: no KMS is configured, or the configured
KMS encrypts the given secret successfully. -/
def encOk (kms : Option KMSModel) (key : String) (sec : Secret) : Prop :=
  ∀ K, kms = some K → ∃ ct, K.encrypt key sec = .ok ct

/-- An input larger than 10 MiB: one complete 22-character record
followed by ten mebibytes of spaces. -/
def c6BigInput : List Char :=
  serializeData ⟨"k", []⟩ ++ List.replicate maxCiphertextSize ' '

/-- A record whose `bytes` field holds the given (non-base64) text. -/
def badB64Input (v : List Char) : List Char :=
  '\x7b' :: '"' :: 'k' :: 'e' :: 'y' :: '"' :: ':' :: '"' :: 'k' :: '"' :: ',' :: '"' ::
    'b' :: 'y' :: 't' :: 'e' :: 's' :: '"' :: ':' :: '"' :: (v ++ '"' :: '\x7d' :: [])

/-- A character that a JSON string literal may contain unescaped: no
control characters, no quote, no backslash. -/
def jsonSafeChar (c : Char) : Prop := 32 ≤ c.toNat ∧ c ≠ '"' ∧ c ≠ '\\'

instance (c : Char) : Decidable (jsonSafeChar c) := by
  unfold jsonSafeChar; infer_instance

/-! ## Lemmas about the base64 codec -/

theorem b64idx_b64chr : ∀ n, n < 64 → b64idx (b64chr n) = some n := by decide

theorem b64chr_ne_pad : ∀ n, n < 64 → b64chr n ≠ '=' := by decide

theorem b64chr_tame : ∀ n, n < 64 →
    jsonSafeChar (b64chr n) ∧ b64chr n ≠ '\r' ∧ b64chr n ≠ '\n' := by decide

theorem pad_tame : jsonSafeChar '=' ∧ ('=' : Char) ≠ '\r' ∧ ('=' : Char) ≠ '\n' := by decide

/-- Decoding inverts encoding on genuine byte lists. -/
theorem b64_roundtrip : ∀ bs : List Nat, (∀ b ∈ bs, b < 256) →
    b64decodeCore (b64encode bs) = some bs := by
  intro bs
  induction bs using b64encode.induct with
  | case1 b0 b1 b2 rest ih =>
    intro h
    have hb0 : b0 < 256 := h b0 (by simp)
    have hb1 : b1 < 256 := h b1 (by simp)
    have hb2 : b2 < 256 := h b2 (by simp)
    have e0 := b64idx_b64chr (b0 / 4) (by omega)
    have e1 := b64idx_b64chr ((b0 % 4) * 16 + b1 / 16) (by omega)
    have e2 := b64idx_b64chr ((b1 % 16) * 4 + b2 / 64) (by omega)
    have e3 := b64idx_b64chr (b2 % 64) (by omega)
    have ne2 := b64chr_ne_pad ((b1 % 16) * 4 + b2 / 64) (by omega)
    have ne3 := b64chr_ne_pad (b2 % 64) (by omega)
    rw [b64encode, b64decodeCore, e0, e1]
    simp only [if_neg ne2, e2, if_neg ne3, e3]
    rw [ih (fun b hb => h b (by simp [hb]))]
    simp only [Option.map_some', Option.some.injEq, List.cons.injEq, and_true]
    refine ⟨by omega, by omega, by omega⟩
  | case2 b0 b1 =>
    intro h
    have hb0 : b0 < 256 := h b0 (by simp)
    have hb1 : b1 < 256 := h b1 (by simp)
    have e0 := b64idx_b64chr (b0 / 4) (by omega)
    have e1 := b64idx_b64chr ((b0 % 4) * 16 + b1 / 16) (by omega)
    have e2 := b64idx_b64chr ((b1 % 16) * 4) (by omega)
    have ne2 := b64chr_ne_pad ((b1 % 16) * 4) (by omega)
    rw [b64encode, b64decodeCore, e0, e1]
    simp only [if_neg ne2, e2, if_true, and_self, Option.some.injEq, List.cons.injEq, and_true]
    refine ⟨by omega, by omega⟩
  | case3 b0 =>
    intro h
    have hb0 : b0 < 256 := h b0 (by simp)
    have e0 := b64idx_b64chr (b0 / 4) (by omega)
    have e1 := b64idx_b64chr ((b0 % 4) * 16) (by omega)
    rw [b64encode, b64decodeCore, e0, e1]
    simp only [if_true, and_self, Option.some.injEq, List.cons.injEq, and_true]
    omega
  | case4 =>
    intro _
    rfl

/-- Every character of an encoding of genuine bytes is a tame
JSON-string character and is not skipped by the base64 decoder. -/
theorem b64encode_tame : ∀ bs : List Nat, (∀ b ∈ bs, b < 256) →
    ∀ c ∈ b64encode bs, jsonSafeChar c ∧ c ≠ '\r' ∧ c ≠ '\n' := by
  intro bs
  induction bs using b64encode.induct with
  | case1 b0 b1 b2 rest ih =>
    intro h c hc
    have hb0 : b0 < 256 := h b0 (by simp)
    have hb1 : b1 < 256 := h b1 (by simp)
    have hb2 : b2 < 256 := h b2 (by simp)
    rw [b64encode] at hc
    simp only [List.mem_cons] at hc
    rcases hc with rfl | rfl | rfl | rfl | hc
    · exact b64chr_tame _ (by omega)
    · exact b64chr_tame _ (by omega)
    · exact b64chr_tame _ (by omega)
    · exact b64chr_tame _ (by omega)
    · exact ih (fun b hb => h b (by simp [hb])) c hc
  | case2 b0 b1 =>
    intro h c hc
    have hb0 : b0 < 256 := h b0 (by simp)
    have hb1 : b1 < 256 := h b1 (by simp)
    rw [b64encode] at hc
    simp only [List.mem_cons] at hc
    rcases hc with rfl | rfl | rfl | rfl | hc
    · exact b64chr_tame _ (by omega)
    · exact b64chr_tame _ (by omega)
    · exact b64chr_tame _ (by omega)
    · exact pad_tame
    · simp at hc
  | case3 b0 =>
    intro h c hc
    have hb0 : b0 < 256 := h b0 (by simp)
    rw [b64encode] at hc
    simp only [List.mem_cons] at hc
    rcases hc with rfl | rfl | rfl | rfl | hc
    · exact b64chr_tame _ (by omega)
    · exact b64chr_tame _ (by omega)
    · exact pad_tame
    · exact pad_tame
    · simp at hc
  | case4 =>
    intro _ c hc
    simp [b64encode] at hc

/-- The Go decoder (with its newline filter) inverts encoding. -/
theorem b64decodeGo_encode (bs : List Nat) (h : ∀ b ∈ bs, b < 256) :
    b64decodeGo (b64encode bs) = some bs := by
  rw [b64decodeGo]
  have hf : (b64encode bs).filter (fun c => !(c == '\r' || c == '\n')) = b64encode bs := by
    apply List.filter_eq_self.mpr
    intro c hc
    have := b64encode_tame bs h c hc
    simp [this.2.1, this.2.2]
  rw [hf]
  exact b64_roundtrip bs h

theorem b64encode_length : ∀ bs : List Nat,
    (b64encode bs).length = 4 * ((bs.length + 2) / 3) := by
  intro bs
  induction bs using b64encode.induct with
  | case1 b0 b1 b2 rest ih =>
    rw [b64encode]
    simp only [List.length_cons, ih]
    omega
  | case2 b0 b1 => simp [b64encode]
  | case3 b0 => simp [b64encode]
  | case4 => rfl

/-! ## Lemmas about JSON scanning -/

/-- A Lean character is a Unicode scalar and thus never a surrogate. -/
theorem charNotSur (c : Char) : isHighSur c.toNat = false ∧ isLowSur c.toNat = false := by
  have h := c.valid
  simp only [isValidChar] at h
  simp only [isHighSur, isLowSur, Bool.and_eq_false_iff]
  rcases h with h | ⟨h1, h2⟩
  · have : c.toNat < 55296 := h
    constructor <;> simp <;> omega
  · have : 57343 < c.toNat := h1
    constructor <;> simp <;> omega

/-- Scanning a string literal made of tame characters stops at the
closing quote and returns the characters unchanged. -/
theorem runStr_safe : ∀ ks rest : List Char, (∀ c ∈ ks, jsonSafeChar c) →
    runStr .normal (ks ++ '"' :: rest) = some (ks.map Char.toNat, rest) := by
  intro ks
  induction ks with
  | nil => intro rest _; rfl
  | cons c t ih =>
    intro rest h
    obtain ⟨h1, h2, h3⟩ := h c (by simp)
    rw [List.cons_append, runStr, if_neg h2, if_neg h3, if_neg (by omega)]
    rw [ih rest (fun x hx => h x (by simp [hx]))]
    rfl

theorem fixSurAux_chars : ∀ ks : List Char,
    fixSurAux none (ks.map Char.toNat) = ks.map Char.toNat := by
  intro ks
  induction ks with
  | nil => rfl
  | cons c t ih => simp [fixSurAux, (charNotSur c).1, (charNotSur c).2, ih]

theorem strFromCps_map (ks : List Char) : strFromCps (ks.map Char.toNat) = String.mk ks := by
  simp [strFromCps, charFromCp, List.map_map, Function.comp_def]

theorem parseJString_safe (ks rest : List Char) (h : ∀ c ∈ ks, jsonSafeChar c) :
    parseJString (ks ++ '"' :: rest) = some (String.mk ks, rest) := by
  rw [parseJString, runStr_safe ks rest h]
  simp [fixSurrogates, fixSurAux_chars, strFromCps_map]

theorem skipWs_nonws {c : Char} (l : List Char) (h : isWsChar c = false) :
    skipWs (c :: l) = c :: l := by simp [skipWs, h]

/-! ## Step lemmas for the object decoder -/

theorem parseFieldValue_key (acc : Ciphertext) (nm : String) (s r1 rest : List Char) (v : String)
    (hnm : lowerAscii nm = "key") (h1 : skipWs s = '"' :: r1)
    (h2 : parseJString r1 = some (v, rest)) :
    parseFieldValue acc nm s = some ({ acc with Key := v }, rest) := by
  simp [parseFieldValue, hnm, h1, h2]

theorem parseFieldValue_bytes (acc : Ciphertext) (nm : String) (s r1 rest : List Char)
    (v : String) (bs : List Nat)
    (hnm : lowerAscii nm = "bytes") (h1 : skipWs s = '"' :: r1)
    (h2 : parseJString r1 = some (v, rest)) (h3 : b64decodeGo v.data = some bs) :
    parseFieldValue acc nm s = some ({ acc with Bytes := bs }, rest) := by
  simp [parseFieldValue, hnm, h1, h2, h3]

theorem parseFieldValue_bytes_bad (acc : Ciphertext) (nm : String) (s r1 rest : List Char)
    (v : String)
    (hnm : lowerAscii nm = "bytes") (h1 : skipWs s = '"' :: r1)
    (h2 : parseJString r1 = some (v, rest)) (h3 : b64decodeGo v.data = none) :
    parseFieldValue acc nm s = none := by
  simp [parseFieldValue, hnm, h1, h2, h3]

theorem parseFieldValue_unknown (acc : Ciphertext) (nm : String) (s : List Char)
    (hk : lowerAscii nm ≠ "key") (hb : lowerAscii nm ≠ "bytes") :
    parseFieldValue acc nm s = none := by
  simp [parseFieldValue, hk, hb]

theorem parseMembers_last (fuel : Nat) (acc acc1 : Ciphertext) (s r1 r2 r3 r4 r5 : List Char)
    (nm : String)
    (h1 : skipWs s = '"' :: r1) (h2 : parseJString r1 = some (nm, r2))
    (h3 : skipWs r2 = ':' :: r3) (h4 : parseFieldValue acc nm r3 = some (acc1, r4))
    (h5 : skipWs r4 = '\x7d' :: r5) :
    parseMembers (fuel + 1) acc s = some (acc1, r5) := by
  simp [parseMembers, h1, h2, h3, h4, h5]

theorem parseMembers_step (fuel : Nat) (acc acc1 : Ciphertext) (s r1 r2 r3 r4 r5 : List Char)
    (nm : String)
    (h1 : skipWs s = '"' :: r1) (h2 : parseJString r1 = some (nm, r2))
    (h3 : skipWs r2 = ':' :: r3) (h4 : parseFieldValue acc nm r3 = some (acc1, r4))
    (h5 : skipWs r4 = ',' :: r5) :
    parseMembers (fuel + 1) acc s = parseMembers fuel acc1 r5 := by
  simp [parseMembers, h1, h2, h3, h4, h5]

theorem decodeCiphertext_members (t rest r0 : List Char) (c : Ciphertext) (rem : List Char)
    (h : skipWs t = '\x7b' :: rest) (h2 : skipWs rest = '"' :: r0)
    (hm : parseMembers (rest.length + 1) ⟨"", []⟩ rest = some (c, rem)) :
    decodeCiphertext t = some c := by
  simp [decodeCiphertext, h, h2, hm]

/-! ## The serialized form parses back -/

theorem parseMembers_ser (fuel : Nat) (k : String) (bs : List Nat) (extra : List Char)
    (hk : ∀ c ∈ k.data, jsonSafeChar c) (hbs : ∀ b ∈ bs, b < 256) :
    parseMembers (fuel + 2) ⟨"", []⟩
      ('"' :: 'k' :: 'e' :: 'y' :: '"' :: ':' :: '"' ::
        (k.data ++ '"' :: ',' :: '"' :: 'b' :: 'y' :: 't' :: 'e' :: 's' :: '"' :: ':' :: '"' ::
          (b64encode bs ++ '"' :: '\x7d' :: extra)))
      = some (⟨k, bs⟩, extra) := by
  have e2 := parseJString_safe ['k', 'e', 'y']
    (':' :: '"' :: (k.data ++ '"' :: ',' :: '"' :: 'b' :: 'y' :: 't' :: 'e' :: 's' :: '"' :: ':' :: '"' ::
      (b64encode bs ++ '"' :: '\x7d' :: extra))) (by decide)
  simp only [List.cons_append, List.nil_append] at e2
  have ekey := parseJString_safe k.data
    (',' :: '"' :: 'b' :: 'y' :: 't' :: 'e' :: 's' :: '"' :: ':' :: '"' ::
      (b64encode bs ++ '"' :: '\x7d' :: extra)) hk
  have hfv1 := parseFieldValue_key ⟨"", []⟩ "key" _ _ _ (String.mk k.data) (by decide)
    (skipWs_nonws _ (by decide)) ekey
  rw [parseMembers_step (fuel + 1) ⟨"", []⟩ _ _ _ _ _ _ _ "key"
    (skipWs_nonws _ (by decide)) e2 (skipWs_nonws _ (by decide)) hfv1
    (skipWs_nonws _ (by decide))]
  have e3 := parseJString_safe ['b', 'y', 't', 'e', 's']
    (':' :: '"' :: (b64encode bs ++ '"' :: '\x7d' :: extra)) (by decide)
  simp only [List.cons_append, List.nil_append] at e3
  have ebytes := parseJString_safe (b64encode bs) ('\x7d' :: extra)
    (fun c hc => (b64encode_tame bs hbs c hc).1)
  have hdec : b64decodeGo (String.mk (b64encode bs)).data = some bs := b64decodeGo_encode bs hbs
  have hfv2 := parseFieldValue_bytes { Key := String.mk k.data, Bytes := [] } "bytes" _ _ _
    (String.mk (b64encode bs)) bs (by decide) (skipWs_nonws _ (by decide)) ebytes hdec
  rw [parseMembers_last fuel _ _ _ _ _ _ _ _ "bytes"
    (skipWs_nonws _ (by decide)) e3 (skipWs_nonws _ (by decide)) hfv2
    (skipWs_nonws _ (by decide))]

theorem decode_ser (c : Ciphertext) (extra : List Char)
    (hk : ∀ ch ∈ c.Key.data, jsonSafeChar ch) (hbs : ∀ b ∈ c.Bytes, b < 256) :
    decodeCiphertext (serializeData c ++ extra) = some c := by
  have hser : serializeData c ++ extra =
      '\x7b' :: ('"' :: 'k' :: 'e' :: 'y' :: '"' :: ':' :: '"' ::
        (c.Key.data ++ '"' :: ',' :: '"' :: 'b' :: 'y' :: 't' :: 'e' :: 's' :: '"' :: ':' :: '"' ::
          (b64encode c.Bytes ++ '"' :: '\x7d' :: extra))) := by
    simp [serializeData]
  rw [hser]
  set tail := 'k' :: 'e' :: 'y' :: '"' :: ':' :: '"' ::
        (c.Key.data ++ '"' :: ',' :: '"' :: 'b' :: 'y' :: 't' :: 'e' :: 's' :: '"' :: ':' :: '"' ::
          (b64encode c.Bytes ++ '"' :: '\x7d' :: extra)) with htail
  have hm : parseMembers (('"' :: tail).length + 1) ⟨"", []⟩ ('"' :: tail) = some (c, extra) := by
    have hl : ('"' :: tail).length + 1 = tail.length + 2 := by simp
    rw [hl, htail]
    exact parseMembers_ser tail.length c.Key c.Bytes extra hk hbs
  exact decodeCiphertext_members _ ('"' :: tail) tail c extra
    (skipWs_nonws _ (by decide)) (skipWs_nonws _ (by decide)) hm

/-- The codec round-trip: a tame-keyed ciphertext whose serialized form
fits into the 10 MiB bound parses back to itself. -/
theorem readFrom_ser (c : Ciphertext)
    (hk : ∀ ch ∈ c.Key.data, jsonSafeChar ch) (hbs : ∀ b ∈ c.Bytes, b < 256)
    (hne : c.Key ≠ "") (hlen : (serializeData c).length ≤ maxCiphertextSize) :
    ciphertextReadFrom (serializeData c) = .ok c := by
  have hdec := decode_ser c [] hk hbs
  rw [List.append_nil] at hdec
  rw [ciphertextReadFrom, List.take_of_length_le hlen, hdec]
  simp [hne]

/-! ## Extension lemmas: a successful parse is stable under appending
input, which is how `json.Decoder.Decode` leaves trailing data unread -/

theorem runStr_append (ys : List Char) : ∀ st xs, ∀ v rem, runStr st xs = some (v, rem) →
    runStr st (xs ++ ys) = some (v, rem ++ ys) := by
  intro st xs
  induction st, xs using runStr.induct with
  | case1 st => intro v rem h; cases st <;> simp [runStr] at h
  | case2 rest =>
    intro v rem h
    simp [runStr] at h ⊢
    simp [h.1, h.2]
  | case3 rest hne ih =>
    intro v rem h
    rw [List.cons_append]
    rw [runStr, if_neg (by decide), if_pos rfl] at h ⊢
    exact ih v rem h
  | case4 c rest h1 h2 h3 =>
    intro v rem h
    rw [runStr, if_neg h1, if_neg h2, if_pos h3] at h
    exact absurd h (by simp)
  | case5 c rest h1 h2 h3 ih =>
    intro v rem h
    rw [runStr, if_neg h1, if_neg h2, if_neg h3] at h
    rw [List.cons_append, runStr, if_neg h1, if_neg h2, if_neg h3]
    obtain ⟨p, hp, hvp⟩ := Option.map_eq_some'.mp h
    cases hvp
    rw [ih p.1 p.2 (by rw [hp])]
    simp
  | case6 rest ih =>
    intro v rem h
    rw [runStr, if_pos rfl] at h
    rw [List.cons_append, runStr, if_pos rfl]
    exact ih v rem h
  | case7 c rest hne n hesc ih =>
    intro v rem h
    rw [runStr, if_neg hne, hesc] at h
    rw [List.cons_append, runStr, if_neg hne, hesc]
    obtain ⟨p, hp, hvp⟩ := Option.map_eq_some'.mp h
    cases hvp
    rw [ih p.1 p.2 (by rw [hp])]
    simp
  | case8 c rest hne hesc =>
    intro v rem h
    rw [runStr, if_neg hne, hesc] at h
    exact absurd h (by simp)
  | case9 acc c rest d hd ih =>
    intro v rem h
    rw [runStr, hd] at h
    rw [List.cons_append, runStr, hd]
    obtain ⟨p, hp, hvp⟩ := Option.map_eq_some'.mp h
    cases hvp
    rw [ih p.1 p.2 (by rw [hp])]
    simp
  | case10 acc c rest hd =>
    intro v rem h
    rw [runStr, hd] at h
    exact absurd h (by simp)
  | case11 p acc c rest d hd ih =>
    intro v rem h
    rw [runStr, hd] at h
    rw [List.cons_append, runStr, hd]
    exact ih v rem h
  | case12 p acc c rest hd =>
    intro v rem h
    rw [runStr, hd] at h
    exact absurd h (by simp)
  | case13 a hd tl =>
    intro v rem h
    rw [runStr] at h
    exact absurd h (by simp)

theorem skipWs_append (ys : List Char) : ∀ xs c r, skipWs xs = c :: r →
    skipWs (xs ++ ys) = c :: (r ++ ys) := by
  intro xs
  induction xs with
  | nil => intro c r h; simp [skipWs] at h
  | cons a t ih =>
    intro c r h
    rw [skipWs] at h
    rw [List.cons_append, skipWs]
    by_cases hw : isWsChar a = true
    · rw [if_pos hw] at h ⊢
      exact ih c r h
    · rw [if_neg hw] at h ⊢
      injection h with h1 h2
      subst h1; subst h2
      rfl

theorem parseJString_append (ys xs : List Char) (v : String) (rem : List Char)
    (h : parseJString xs = some (v, rem)) : parseJString (xs ++ ys) = some (v, rem ++ ys) := by
  rw [parseJString] at h ⊢
  obtain ⟨p, hp, hvp⟩ := Option.map_eq_some'.mp h
  cases hvp
  rw [runStr_append ys _ _ p.1 p.2 (by rw [hp])]
  simp

theorem parseFieldValue_append (ys : List Char) (acc acc1 : Ciphertext) (nm : String)
    (s rem : List Char) (h : parseFieldValue acc nm s = some (acc1, rem)) :
    parseFieldValue acc nm (s ++ ys) = some (acc1, rem ++ ys) := by
  rw [parseFieldValue] at h
  by_cases hk : lowerAscii nm = "key"
  · rw [if_pos hk] at h
    split at h
    next rest heq =>
      obtain ⟨p, hp, hvp⟩ := Option.map_eq_some'.mp h
      cases hvp
      exact parseFieldValue_key acc nm _ _ _ p.1 hk (skipWs_append ys s '"' rest heq)
        (parseJString_append ys rest p.1 p.2 (by rw [hp]))
    next rest heq =>
      rw [Option.some.injEq, Prod.mk.injEq] at h
      obtain ⟨h1, h2⟩ := h
      subst h1; subst h2
      have hs := skipWs_append ys s 'n' _ heq
      simp only [List.cons_append] at hs
      simp [parseFieldValue, hk, hs]
    next => simp at h
  · rw [if_neg hk] at h
    by_cases hb : lowerAscii nm = "bytes"
    · rw [if_pos hb] at h
      split at h
      next rest heq =>
        split at h
        next => simp at h
        next v1 rest1 hjs =>
          split at h
          next => simp at h
          next bs hb64 =>
            rw [Option.some.injEq, Prod.mk.injEq] at h
            obtain ⟨h1, h2⟩ := h
            subst h1; subst h2
            exact parseFieldValue_bytes acc nm _ _ _ v1 bs hb
              (skipWs_append ys s '"' rest heq)
              (parseJString_append ys rest v1 rest1 hjs) hb64
      next rest heq =>
        rw [Option.some.injEq, Prod.mk.injEq] at h
        obtain ⟨h1, h2⟩ := h
        subst h1; subst h2
        have hs := skipWs_append ys s 'n' _ heq
        simp only [List.cons_append] at hs
        simp [parseFieldValue, hk, hb, hs]
      next => simp at h
    · rw [if_neg hb] at h
      simp at h

theorem parseMembers_append (ys : List Char) :
    ∀ fuel acc acc1 s rem, parseMembers fuel acc s = some (acc1, rem) →
    ∀ g, fuel ≤ g → parseMembers g acc (s ++ ys) = some (acc1, rem ++ ys) := by
  intro fuel
  induction fuel with
  | zero => intro acc acc1 s rem h; simp [parseMembers] at h
  | succ f ih =>
    intro acc acc1 s rem h g hg
    obtain ⟨g1, rfl⟩ : ∃ g1, g = g1 + 1 := ⟨g - 1, by omega⟩
    rw [parseMembers] at h
    split at h
    next rest heq =>
      split at h
      next => simp at h
      next nm rest1 hjs =>
        split at h
        next rest2 heq2 =>
          split at h
          next => simp at h
          next accv rest3 hfv =>
            split at h
            next rest4 heq4 =>
              rw [parseMembers_step g1 acc accv (s ++ ys) _ _ _ _ _ nm
                (skipWs_append ys s '"' rest heq)
                (parseJString_append ys rest nm rest1 hjs)
                (skipWs_append ys rest1 ':' rest2 heq2)
                (parseFieldValue_append ys acc accv nm rest2 rest3 hfv)
                (skipWs_append ys rest3 ',' rest4 heq4)]
              exact ih accv acc1 rest4 rem h g1 (by omega)
            next rest4 heq4 =>
              rw [Option.some.injEq, Prod.mk.injEq] at h
              obtain ⟨h1, h2⟩ := h
              subst h1; subst h2
              exact parseMembers_last g1 acc _ (s ++ ys) _ _ _ _ _ nm
                (skipWs_append ys s '"' rest heq)
                (parseJString_append ys rest nm rest1 hjs)
                (skipWs_append ys rest1 ':' rest2 heq2)
                (parseFieldValue_append ys acc _ nm rest2 rest3 hfv)
                (skipWs_append ys rest3 '\x7d' rest4 heq4)
            next => simp at h
        next => simp at h
    next => simp at h

theorem decodeCiphertext_members_inv (t rest r0 : List Char) (c0 : Ciphertext)
    (h : skipWs t = '\x7b' :: rest) (h2 : skipWs rest = '"' :: r0)
    (hdc : decodeCiphertext t = some c0) :
    ∃ rem, parseMembers (rest.length + 1) ⟨"", []⟩ rest = some (c0, rem) := by
  simp only [decodeCiphertext, h, h2] at hdc
  obtain ⟨p, hp, hc⟩ := Option.map_eq_some'.mp hdc
  exact ⟨p.2, by rw [hp, ← hc]⟩

theorem readFrom_ser_oversize (c : Ciphertext)
    (hk : ∀ ch ∈ c.Key.data, jsonSafeChar ch) (hbs : ∀ b ∈ c.Bytes, b < 256)
    (hlen : maxCiphertextSize < (serializeData c).length) :
    ciphertextReadFrom (serializeData c) = .error .malformedCiphertext := by
  set s1 := 'k' :: 'e' :: 'y' :: '"' :: ':' :: '"' ::
      (c.Key.data ++ '"' :: ',' :: '"' :: 'b' :: 'y' :: 't' :: 'e' :: 's' :: '"' :: ':' :: '"' ::
        (b64encode c.Bytes ++ '"' :: '\x7d' :: ([] : List Char))) with hs1
  have hser : serializeData c = '\x7b' :: '"' :: s1 := by
    rw [hs1]; simp [serializeData]
  have hfull : parseMembers (s1.length + 2) ⟨"", []⟩ ('"' :: s1) = some (c, []) := by
    rw [hs1]
    exact parseMembers_ser _ c.Key c.Bytes [] hk hbs
  have hM : maxCiphertextSize = 10485760 := rfl
  have hlen2 : maxCiphertextSize - 2 < s1.length := by
    have h1 : (serializeData c).length = s1.length + 2 := by rw [hser]; simp
    omega
  have ht : (serializeData c).take maxCiphertextSize =
      '\x7b' :: '"' :: s1.take (maxCiphertextSize - 2) := by
    rw [hser]
    have h2 : maxCiphertextSize = (maxCiphertextSize - 2) + 1 + 1 := by
      simp [maxCiphertextSize]
    rw [h2, List.take_succ_cons, List.take_succ_cons]
    have h3 : maxCiphertextSize - 2 + 1 + 1 - 2 = maxCiphertextSize - 2 := by omega
    rw [h3]
  have hd : s1.drop (maxCiphertextSize - 2) ≠ [] := by
    intro hcon
    have h3 : (s1.drop (maxCiphertextSize - 2)).length = s1.length - (maxCiphertextSize - 2) :=
      List.length_drop _ _
    rw [hcon] at h3
    simp at h3
    omega
  have hnone : decodeCiphertext ((serializeData c).take maxCiphertextSize) = none := by
    rw [ht]
    cases hdc : decodeCiphertext ('\x7b' :: '"' :: s1.take (maxCiphertextSize - 2)) with
    | none => rfl
    | some c0 =>
      exfalso
      obtain ⟨rem, hpm⟩ := decodeCiphertext_members_inv _
        ('"' :: s1.take (maxCiphertextSize - 2)) (s1.take (maxCiphertextSize - 2)) c0
        (skipWs_nonws _ (by decide)) (skipWs_nonws _ (by decide)) hdc
      have hfw : (('"' :: s1.take (maxCiphertextSize - 2)).length + 1) ≤ s1.length + 2 := by
        have h4 := List.length_take (maxCiphertextSize - 2) s1
        simp only [List.length_cons]
        omega
      have happ := parseMembers_append (s1.drop (maxCiphertextSize - 2)) _ _ c0 _ rem hpm
        (s1.length + 2) hfw
      rw [List.cons_append, List.take_append_drop] at happ
      rw [hfull] at happ
      rw [Option.some.injEq, Prod.mk.injEq] at happ
      obtain ⟨h5, h6⟩ := happ
      exact hd (List.append_eq_nil.mp h6.symm).2
  rw [ciphertextReadFrom, hnone]

theorem c6eval : ciphertextReadFrom
    (serializeData ⟨"k", []⟩ ++ List.replicate maxCiphertextSize ' ') = .ok ⟨"k", []⟩ := by
  have hM : maxCiphertextSize = 10485760 := rfl
  have hl : (serializeData ⟨"k", []⟩).length = 22 := by decide
  have ht : (serializeData ⟨"k", []⟩ ++ List.replicate maxCiphertextSize ' ').take maxCiphertextSize
      = serializeData ⟨"k", []⟩ ++ List.replicate (maxCiphertextSize - 22) ' ' := by
    rw [List.take_append_eq_append_take, List.take_of_length_le (by omega), hl, List.take_replicate]
    congr 1
  rw [ciphertextReadFrom, ht, decode_ser ⟨"k", []⟩ _ (by decide) (by simp)]
  rfl

theorem c6len : maxCiphertextSize <
    (serializeData ⟨"k", []⟩ ++ List.replicate maxCiphertextSize ' ').length := by
  have hl : (serializeData ⟨"k", []⟩).length = 22 := by decide
  simp [List.length_append, hl]

/-! ## Cache and backend-map facts -/

theorem cacheGet_del (c : Cache) (n : String) : (c.del n).get n = none := by
  rw [Cache.get, Option.map_eq_none', List.find?_eq_none]
  intro x hx
  have hm := (List.mem_filter.mp hx).2
  simp at hm ⊢
  exact hm

theorem mapGet_del (m : List (String × String)) (n : String) : mapGet (mapDel m n) n = none := by
  rw [mapGet, Option.map_eq_none', List.find?_eq_none]
  intro x hx
  have hm := (List.mem_filter.mp hx).2
  simp at hm ⊢
  exact hm

/-! ## Failure-path lemmas for the decoder -/

theorem parseMembers_fail_fv (fuel : Nat) (acc : Ciphertext) (s r1 r2 r3 : List Char) (nm : String)
    (h1 : skipWs s = '"' :: r1) (h2 : parseJString r1 = some (nm, r2))
    (h3 : skipWs r2 = ':' :: r3) (h4 : parseFieldValue acc nm r3 = none) :
    parseMembers (fuel + 1) acc s = none := by
  simp [parseMembers, h1, h2, h3, h4]

theorem decodeCiphertext_members_none (t rest r0 : List Char)
    (h : skipWs t = '\x7b' :: rest) (h2 : skipWs rest = '"' :: r0)
    (hm : parseMembers (rest.length + 1) ⟨"", []⟩ rest = none) :
    decodeCiphertext t = none := by
  simp [decodeCiphertext, h, h2, hm]

theorem readFrom_small_none (s : List Char) (hlen : s.length ≤ maxCiphertextSize)
    (h : decodeCiphertext s = none) :
    ciphertextReadFrom s = .error .malformedCiphertext := by
  rw [ciphertextReadFrom, List.take_of_length_le hlen, h]

/-- `ReadFrom` either succeeds or fails with the one generic error. -/
theorem readFrom_err_shape (s : List Char) :
    (∃ c, ciphertextReadFrom s = .ok c) ∨ ciphertextReadFrom s = .error .malformedCiphertext := by
  rw [ciphertextReadFrom]
  cases hdc : decodeCiphertext (s.take maxCiphertextSize) with
  | none => exact .inr rfl
  | some c =>
    by_cases hkey : c.Key = ""
    · exact .inr (by simp [hkey])
    · exact .inl ⟨c, by simp [hkey]⟩

/-- An object whose single member has an unknown name is rejected
whatever its value looks like (`DisallowUnknownFields`). -/
theorem c7unknown (nm vrest : List Char)
    (hnm : ∀ ch ∈ nm, jsonSafeChar ch)
    (hk : lowerAscii (String.mk nm) ≠ "key") (hb : lowerAscii (String.mk nm) ≠ "bytes")
    (hlen : ('\x7b' :: '"' :: (nm ++ '"' :: ':' :: vrest)).length ≤ maxCiphertextSize) :
    ciphertextReadFrom ('\x7b' :: '"' :: (nm ++ '"' :: ':' :: vrest))
      = .error .malformedCiphertext := by
  apply readFrom_small_none _ hlen
  apply decodeCiphertext_members_none _ ('"' :: (nm ++ '"' :: ':' :: vrest))
    (nm ++ '"' :: ':' :: vrest)
    (skipWs_nonws _ (by decide)) (skipWs_nonws _ (by decide))
  exact parseMembers_fail_fv _ _ _ _ _ _ (String.mk nm) (skipWs_nonws _ (by decide))
    (parseJString_safe nm (':' :: vrest) hnm) (skipWs_nonws _ (by decide))
    (parseFieldValue_unknown _ _ _ hk hb)

/-- A record whose key field is present but empty is rejected, whatever
its size: within the bound the decoded key fails the emptiness check,
beyond it the truncated record is malformed. -/
theorem c7empty (bs : List Nat) (hbs : ∀ b ∈ bs, b < 256) :
    ciphertextReadFrom (serializeData ⟨"", bs⟩) = .error .malformedCiphertext := by
  by_cases hlen : (serializeData ⟨"", bs⟩).length ≤ maxCiphertextSize
  · have hdec := decode_ser ⟨"", bs⟩ [] (by simp) hbs
    rw [List.append_nil] at hdec
    rw [ciphertextReadFrom, List.take_of_length_le hlen, hdec]
    rfl
  · exact readFrom_ser_oversize ⟨"", bs⟩ (by simp) hbs (by omega)

theorem c7badb64_members (n : Nat) (v : List Char)
    (hv : ∀ ch ∈ v, jsonSafeChar ch) (hb64 : b64decodeGo v = none) :
    parseMembers (n + 2) ⟨"", []⟩
      ('"' :: 'k' :: 'e' :: 'y' :: '"' :: ':' :: '"' :: 'k' :: '"' :: ',' :: '"' ::
        'b' :: 'y' :: 't' :: 'e' :: 's' :: '"' :: ':' :: '"' :: (v ++ '"' :: '\x7d' :: []))
      = none := by
  have e2 := parseJString_safe ['k', 'e', 'y']
    (':' :: '"' :: 'k' :: '"' :: ',' :: '"' :: 'b' :: 'y' :: 't' :: 'e' :: 's' :: '"' :: ':' :: '"' ::
      (v ++ '"' :: '\x7d' :: [])) (by decide)
  simp only [List.cons_append, List.nil_append] at e2
  have ekey := parseJString_safe ['k']
    (',' :: '"' :: 'b' :: 'y' :: 't' :: 'e' :: 's' :: '"' :: ':' :: '"' :: (v ++ '"' :: '\x7d' :: []))
    (by decide)
  simp only [List.cons_append, List.nil_append] at ekey
  have hfv1 := parseFieldValue_key ⟨"", []⟩ "key" _ _ _ (String.mk ['k']) (by decide)
    (skipWs_nonws _ (by decide)) ekey
  rw [parseMembers_step (n + 1) ⟨"", []⟩ _ _ _ _ _ _ _ "key"
    (skipWs_nonws _ (by decide)) e2 (skipWs_nonws _ (by decide)) hfv1
    (skipWs_nonws _ (by decide))]
  have e3 := parseJString_safe ['b', 'y', 't', 'e', 's']
    (':' :: '"' :: (v ++ '"' :: '\x7d' :: [])) (by decide)
  simp only [List.cons_append, List.nil_append] at e3
  have ev := parseJString_safe v ('\x7d' :: []) hv
  have hbad : b64decodeGo (String.mk v).data = none := hb64
  have hfv2 := parseFieldValue_bytes_bad { Key := String.mk ['k'], Bytes := [] } "bytes" _ _ _
    (String.mk v) (by decide) (skipWs_nonws _ (by decide)) ev hbad
  exact parseMembers_fail_fv n _ _ _ _ _ "bytes"
    (skipWs_nonws _ (by decide)) e3 (skipWs_nonws _ (by decide)) hfv2

/-- A record whose blob is not valid base64 is rejected. -/
theorem c7badb64 (v : List Char) (hv : ∀ ch ∈ v, jsonSafeChar ch) (hb64 : b64decodeGo v = none)
    (hlen : (badB64Input v).length ≤ maxCiphertextSize) :
    ciphertextReadFrom (badB64Input v) = .error .malformedCiphertext := by
  apply readFrom_small_none _ hlen
  apply decodeCiphertext_members_none _
    ('"' :: 'k' :: 'e' :: 'y' :: '"' :: ':' :: '"' :: 'k' :: '"' :: ',' :: '"' ::
      'b' :: 'y' :: 't' :: 'e' :: 's' :: '"' :: ':' :: '"' :: (v ++ '"' :: '\x7d' :: []))
    ('k' :: 'e' :: 'y' :: '"' :: ':' :: '"' :: 'k' :: '"' :: ',' :: '"' ::
      'b' :: 'y' :: 't' :: 'e' :: 's' :: '"' :: ':' :: '"' :: (v ++ '"' :: '\x7d' :: []))
    (skipWs_nonws _ (by decide)) (skipWs_nonws _ (by decide))
  have hl : ('"' :: 'k' :: 'e' :: 'y' :: '"' :: ':' :: '"' :: 'k' :: '"' :: ',' :: '"' ::
      'b' :: 'y' :: 't' :: 'e' :: 's' :: '"' :: ':' :: '"' :: (v ++ '"' :: '\x7d' :: [])).length + 1
      = ((v ++ '"' :: '\x7d' :: []).length + 18) + 2 := by
    simp
  rw [hl]
  exact c7badb64_members _ v hv hb64

theorem serializeData_length (c : Ciphertext) :
    (serializeData c).length = c.Key.data.length + (b64encode c.Bytes).length + 21 := by
  simp [serializeData]
  omega

/-! ## The claims -/

/-- Claim C1: after a successful `Create(name, s)`, a `Get(name)` that
misses the cache and reads the backend returns `s`, for both stores and
both encryption modes.  The filesystem store with a KMS refutes this:
`sec, err := store.KMS.Decrypt(ciphertext)` shadows the outer `sec`, so
`Get` returns (and caches) the zero-valued secret.  This theorem
evaluates the code at the failing input: the stub KMS inverts its
encryption, `Create` succeeded, the backend still decrypts to
`⟨[1,2,3]⟩`, yet the cache-missing `Get` returns the empty secret. -/
theorem c1_fs_kms_get_loses_secret :
    (stubKMS.encrypt "master-1" ⟨[1, 2, 3]⟩).bind stubKMS.decrypt = .ok ⟨[1, 2, 3]⟩ ∧
    fsAfterCreate.2 = none ∧
    fsEvicted.cache.get "db-key" = none ∧
    fsDerive fsEvicted "db-key" = .ok ⟨[1, 2, 3]⟩ ∧
    fsAfterGet.2 = .ok Secret.zero ∧
    Secret.zero ≠ (⟨[1, 2, 3]⟩ : Secret) :=
  ⟨rfl, rfl, rfl, rfl, rfl, by decide⟩

/-- Claim C2: every secret held in the cache equals the secret obtained
by re-reading (and re-decrypting) the backend entry.  Refuted by the
same shadowing slip in the filesystem `Get`: after the cache-missing
`Get`, the cache holds the zero secret while the backend entry still
derives to `⟨[1,2,3]⟩`. -/
theorem c2_cache_not_derivable_from_backend :
    fsAfterGet.1.cache.get "db-key" = some Secret.zero ∧
    fsDerive fsAfterGet.1 "db-key" = .ok ⟨[1, 2, 3]⟩ ∧
    Secret.zero ≠ (⟨[1, 2, 3]⟩ : Secret) :=
  ⟨rfl, rfl, by decide⟩

/-- Claim C3 counterexample: `Ciphertext.String` splices the key into
the JSON text without escaping, so for the valid ciphertext whose key is
one double-quote character the serialized form is not well-formed JSON
and `ReadFrom` rejects it instead of returning the ciphertext. -/
theorem c3_roundtrip_counterexample :
    (⟨"\"", []⟩ : Ciphertext).Key ≠ "" ∧
    ciphertextReadFrom (Ciphertext.string ⟨"\"", []⟩).data = .error .malformedCiphertext :=
  ⟨by decide, rfl⟩

/-- Claim C3 (amended): for every ciphertext whose non-empty key
contains no character that JSON string syntax escapes (no quote, no
backslash, no control characters), whose bytes are genuine bytes, and
whose serialized form is within the 10 MiB read bound, parsing the
serialized form returns the same key and the same bytes. -/
theorem c3_roundtrip_amended (c : Ciphertext)
    (hk : ∀ ch ∈ c.Key.data, jsonSafeChar ch) (hbs : ∀ b ∈ c.Bytes, b < 256)
    (hne : c.Key ≠ "") (hlen : (Ciphertext.string c).data.length ≤ maxCiphertextSize) :
    ciphertextReadFrom (Ciphertext.string c).data = .ok c :=
  readFrom_ser c hk hbs hne hlen

theorem c3_roundtrip_amended_witness :
    ciphertextReadFrom (Ciphertext.string ⟨"my-key", [0, 1, 2]⟩).data
      = .ok ⟨"my-key", [0, 1, 2]⟩ :=
  c3_roundtrip_amended ⟨"my-key", [0, 1, 2]⟩ (by decide) (by decide) (by decide) (by decide)

/-- Claim C4: `Create` on a name already present in the backend mutates
nothing and, as long as the optional encryption step itself succeeds (an
encryption failure is surfaced as its own error per §4.2 step 2),
returns the key-exists condition; for both stores.  The cache entry and
the backend entry are untouched because the whole store is. -/
theorem c4_create_on_present :
    (∀ (st : MemStore) (name : String) (s2 : Secret), mapGet st.store name ≠ none →
      (st.create name s2).1 = st ∧
      (encOk st.KMS st.Key s2 → (st.create name s2).2 = some .keyExists)) ∧
    (∀ (st : FsStore) (faults : FsFaults) (name : String) (s2 : Secret),
      mapGet st.files name ≠ none →
      (FsStore.create faults st name s2).1 = st ∧
      (encOk st.KMS st.Key s2 → (FsStore.create faults st name s2).2 = some .keyExists)) := by
  constructor
  · intro st name s2 hex
    obtain ⟨blob, hblob⟩ := Option.ne_none_iff_exists'.mp hex
    cases hc : st.cache.get name with
    | some v => simp [MemStore.create, hc]
    | none =>
      cases hkms : st.KMS with
      | none => simp [MemStore.create, hc, hkms, hblob]
      | some K =>
        constructor
        · simp only [MemStore.create, hc, hkms]
          cases he : K.encrypt st.Key s2 with
          | error e => rfl
          | ok ct => simp [hblob]
        · intro henc
          obtain ⟨ct, hct⟩ := henc K rfl
          simp [MemStore.create, hc, hkms, hct, hblob]
  · intro st faults name s2 hex
    obtain ⟨blob, hblob⟩ := Option.ne_none_iff_exists'.mp hex
    cases hc : st.cache.get name with
    | some v => simp [FsStore.create, hc]
    | none =>
      cases hkms : st.KMS with
      | none => simp [FsStore.create, hc, hkms, hblob]
      | some K =>
        constructor
        · simp only [FsStore.create, hc, hkms]
          cases he : K.encrypt st.Key s2 with
          | error e => simp [Except.map]
          | ok ct => simp [Except.map, hblob]
        · intro henc
          obtain ⟨ct, hct⟩ := henc K rfl
          simp [FsStore.create, hc, hkms, hct, hblob, Except.map]

theorem c4_create_on_present_witness :
    (MemStore.create ⟨"", none, ⟨[]⟩, [("a", "AQ==")]⟩ "a" ⟨[2]⟩).1
      = ⟨"", none, ⟨[]⟩, [("a", "AQ==")]⟩ ∧
    (MemStore.create ⟨"", none, ⟨[]⟩, [("a", "AQ==")]⟩ "a" ⟨[2]⟩).2 = some .keyExists ∧
    (FsStore.create noFaults ⟨"", none, ⟨[]⟩, [("a", "AQ==")]⟩ "a" ⟨[2]⟩).1
      = ⟨"", none, ⟨[]⟩, [("a", "AQ==")]⟩ ∧
    (FsStore.create noFaults ⟨"", none, ⟨[]⟩, [("a", "AQ==")]⟩ "a" ⟨[2]⟩).2
      = some .keyExists := by
  have h1 := c4_create_on_present.1 ⟨"", none, ⟨[]⟩, [("a", "AQ==")]⟩ "a" ⟨[2]⟩ (by decide)
  have h2 := c4_create_on_present.2 ⟨"", none, ⟨[]⟩, [("a", "AQ==")]⟩ noFaults "a" ⟨[2]⟩
    (by decide)
  exact ⟨h1.1, h1.2 (fun K h => nomatch h), h2.1, h2.2 (fun K h => nomatch h)⟩

/-- Claim C5: when the durable write (or the durability sync) fails
after the exclusive creation succeeded, `fs.Create` removes the
partially created file, returns the original write error, and a failure
of the removal never replaces that returned error (the error returned is
the same whether or not the removal succeeds). -/
theorem c5_create_rollback (st : FsStore) (faults : FsFaults) (name : String) (sec : Secret)
    (e : GoError)
    (hc : st.cache.get name = none) (henc : encOk st.KMS st.Key sec)
    (hf : mapGet st.files name = none)
    (hw : faults.writeErr = some e ∨ (faults.writeErr = none ∧ faults.syncErr = some e)) :
    (FsStore.create faults st name sec).2 = some e ∧
    (faults.removeFails = false →
      mapGet (FsStore.create faults st name sec).1.files name = none) := by
  have hcontent : ∃ content, (match st.KMS with
      | none => .ok (Secret.string sec)
      | some K => (K.encrypt st.Key sec).map Ciphertext.string :
        Except GoError String) = .ok content := by
    cases hkms : st.KMS with
    | none => exact ⟨_, rfl⟩
    | some K =>
      obtain ⟨ct, hct⟩ := henc K hkms
      exact ⟨ct.string, by simp [hct, Except.map]⟩
  obtain ⟨content, hcontent⟩ := hcontent
  rcases hw with hw | ⟨hw, hs⟩
  · cases hr : faults.removeFails with
    | true => simp [FsStore.create, hc, hcontent, hf, hw, hr]
    | false => simp [FsStore.create, hc, hcontent, hf, hw, hr, hf]
  · cases hr : faults.removeFails with
    | true => simp [FsStore.create, hc, hcontent, hf, hw, hs, hr]
    | false => simp [FsStore.create, hc, hcontent, hf, hw, hs, hr, hf]

theorem c5_create_rollback_witness :
    (FsStore.create ⟨some (.errMsg "disk full"), none, false⟩ ⟨"", none, ⟨[]⟩, []⟩
      "a" ⟨[1]⟩).2 = some (.errMsg "disk full") ∧
    mapGet (FsStore.create ⟨some (.errMsg "disk full"), none, false⟩ ⟨"", none, ⟨[]⟩, []⟩
      "a" ⟨[1]⟩).1.files "a" = none := by
  have h := c5_create_rollback ⟨"", none, ⟨[]⟩, []⟩ ⟨some (.errMsg "disk full"), none, false⟩
    "a" ⟨[1]⟩ (.errMsg "disk full") rfl (fun K h => nomatch h) rfl (Or.inl rfl)
  exact ⟨h.1, h.2 rfl⟩

/-- Claim C6 counterexample: the claim says every input larger than
10 MiB fails, but the decoder reads one JSON value and ignores trailing
data, so an input of a complete record followed by ten mebibytes of
spaces (far above the limit) decodes successfully.  (The parsing also
does run on the truncated prefix rather than failing beforehand.) -/
theorem c6_size_cap_counterexample :
    maxCiphertextSize < c6BigInput.length ∧
    ciphertextReadFrom c6BigInput = .ok ⟨"k", []⟩ :=
  ⟨c6len, c6eval⟩

/-- Claim C6 (amended): decoding reads at most the first 10 MiB of the
input, so a single serialized record (tame key, genuine bytes, no
trailing data) that exceeds 10 MiB fails with the malformed-ciphertext
error: its closing brace lies beyond the truncation point. -/
theorem c6_size_cap_amended (c : Ciphertext)
    (hk : ∀ ch ∈ c.Key.data, jsonSafeChar ch) (hbs : ∀ b ∈ c.Bytes, b < 256)
    (hlen : maxCiphertextSize < (Ciphertext.string c).data.length) :
    ciphertextReadFrom (Ciphertext.string c).data = .error .malformedCiphertext :=
  readFrom_ser_oversize c hk hbs hlen

theorem c6_size_cap_amended_witness :
    ciphertextReadFrom (Ciphertext.string ⟨"k", List.replicate 8100000 0⟩).data
      = .error .malformedCiphertext := by
  apply c6_size_cap_amended
  · show ∀ ch ∈ ("k" : String).data, jsonSafeChar ch
    decide
  · intro b hb
    have hb0 : b = 0 := List.eq_of_mem_replicate hb
    omega
  · show maxCiphertextSize < (serializeData ⟨"k", List.replicate 8100000 0⟩).length
    rw [serializeData_length]
    have hb64 : (b64encode (Ciphertext.mk "k" (List.replicate 8100000 0)).Bytes).length
        = 10800000 := by
      show (b64encode (List.replicate 8100000 (0 : Nat))).length = 10800000
      rw [b64encode_length, List.length_replicate]
    have hkd : (Ciphertext.mk "k" (List.replicate 8100000 0)).Key.data.length = 1 := rfl
    rw [hkd, hb64]
    have hM : maxCiphertextSize = 10485760 := rfl
    omega

/-- Claim C7: `ReadFrom` rejects an object with an unknown field, a
missing key (`\x7b\x7d` decodes to the zero ciphertext, whose empty key is
then rejected), an explicitly empty key, and a blob that is not valid
base64 — and the only error it ever surfaces is the one generic
malformed-ciphertext condition (first conjunct), never a lower-level
parser diagnostic.  The unknown-field and bad-blob parts are stated for
inputs within the 10 MiB bound; beyond it the same malformed error
arises from truncation instead. -/
theorem c7_malformed_conditions :
    (∀ s : List Char, (∃ c, ciphertextReadFrom s = .ok c) ∨
        ciphertextReadFrom s = .error .malformedCiphertext) ∧
    (∀ nm vrest : List Char, (∀ ch ∈ nm, jsonSafeChar ch) →
        lowerAscii (String.mk nm) ≠ "key" → lowerAscii (String.mk nm) ≠ "bytes" →
        ('\x7b' :: '"' :: (nm ++ '"' :: ':' :: vrest)).length ≤ maxCiphertextSize →
        ciphertextReadFrom ('\x7b' :: '"' :: (nm ++ '"' :: ':' :: vrest))
          = .error .malformedCiphertext) ∧
    (ciphertextReadFrom ['\x7b', '\x7d'] = .error .malformedCiphertext) ∧
    (∀ bs : List Nat, (∀ b ∈ bs, b < 256) →
        ciphertextReadFrom (serializeData ⟨"", bs⟩) = .error .malformedCiphertext) ∧
    (∀ v : List Char, (∀ ch ∈ v, jsonSafeChar ch) → b64decodeGo v = none →
        (badB64Input v).length ≤ maxCiphertextSize →
        ciphertextReadFrom (badB64Input v) = .error .malformedCiphertext) :=
  ⟨readFrom_err_shape, c7unknown, rfl, c7empty, c7badb64⟩

theorem c7_malformed_conditions_witness :
    ((∃ c, ciphertextReadFrom ['x'] = .ok c) ∨
      ciphertextReadFrom ['x'] = .error .malformedCiphertext) ∧
    ciphertextReadFrom ('\x7b' :: '"' :: (['k', 'e', 'y', '-', '2'] ++ '"' :: ':' ::
      ['"', '"', '\x7d'])) = .error .malformedCiphertext ∧
    ciphertextReadFrom (serializeData ⟨"", [7]⟩) = .error .malformedCiphertext ∧
    ciphertextReadFrom (badB64Input ['A']) = .error .malformedCiphertext :=
  ⟨c7_malformed_conditions.1 ['x'],
   c7_malformed_conditions.2.1 ['k', 'e', 'y', '-', '2'] ['"', '"', '\x7d']
     (by decide) (by decide) (by decide) (by decide),
   c7_malformed_conditions.2.2.2.1 [7] (by decide),
   c7_malformed_conditions.2.2.2.2 ['A'] (by decide) (by decide) (by decide)⟩

/-- Claim C8: when a KMS is configured, a cache-missing `Get` whose
stored record fails to parse as a ciphertext, or whose decryption fails,
returns exactly `ErrKeySealed` — never the underlying error value; for
both stores. -/
theorem c8_key_sealed :
    (∀ (st : MemStore) (K : KMSModel) (name blob : String),
      st.KMS = some K → st.cache.get name = none → mapGet st.store name = some blob →
      ((∃ e, ciphertextReadFrom blob.data = .error e) ∨
       (∃ ct e, ciphertextReadFrom blob.data = .ok ct ∧ K.decrypt ct = .error e)) →
      (st.get name).2 = .error .keySealed) ∧
    (∀ (st : FsStore) (K : KMSModel) (name blob : String),
      st.KMS = some K → st.cache.get name = none → mapGet st.files name = some blob →
      ((∃ e, ciphertextReadFrom blob.data = .error e) ∨
       (∃ ct e, ciphertextReadFrom blob.data = .ok ct ∧ K.decrypt ct = .error e)) →
      (st.get name).2 = .error .keySealed) := by
  constructor
  · intro st K name blob hkms hc hst hfail
    rcases hfail with ⟨e, he⟩ | ⟨ct, e, hct, he⟩
    · simp [MemStore.get, hc, hst, hkms, he]
    · simp [MemStore.get, hc, hst, hkms, hct, he]
  · intro st K name blob hkms hc hst hfail
    rcases hfail with ⟨e, he⟩ | ⟨ct, e, hct, he⟩
    · simp [FsStore.get, hc, hst, hkms, he]
    · simp [FsStore.get, hc, hst, hkms, hct, he]

theorem c8_key_sealed_witness :
    (MemStore.get ⟨"m", some stubKMS, ⟨[]⟩, [("a", "x")]⟩ "a").2 = .error .keySealed ∧
    (FsStore.get ⟨"m", some stubKMS, ⟨[]⟩, [("a", "x")]⟩ "a").2 = .error .keySealed :=
  ⟨c8_key_sealed.1 ⟨"m", some stubKMS, ⟨[]⟩, [("a", "x")]⟩ stubKMS "a" "x" rfl rfl rfl
     (.inl ⟨.malformedCiphertext, rfl⟩),
   c8_key_sealed.2 ⟨"m", some stubKMS, ⟨[]⟩, [("a", "x")]⟩ stubKMS "a" "x" rfl rfl rfl
     (.inl ⟨.malformedCiphertext, rfl⟩)⟩

/-- Claim C9: `Delete` on an absent name succeeds (idempotent no-op),
and after any successful `Delete(name)` a `Get(name)` returns
`ErrKeyNotFound`; for both stores (the in-memory `Delete` always
succeeds, so its delete-then-get part holds unconditionally). -/
theorem c9_delete_semantics :
    (∀ (st : MemStore) (name : String), mapGet st.store name = none →
        (st.delete name).2 = none) ∧
    (∀ (st : MemStore) (name : String),
        ((st.delete name).1.get name).2 = .error .keyNotFound) ∧
    (∀ (st : FsStore) (faults : FsFaults) (name : String), mapGet st.files name = none →
        (FsStore.delete faults st name).2 = none) ∧
    (∀ (st : FsStore) (faults : FsFaults) (name : String),
        (FsStore.delete faults st name).2 = none →
        ((FsStore.delete faults st name).1.get name).2 = .error .keyNotFound) := by
  refine ⟨fun st name _ => rfl, ?_, ?_, ?_⟩
  · intro st name
    simp [MemStore.delete, MemStore.get, cacheGet_del, mapGet_del]
  · intro st faults name hf
    simp [FsStore.delete, hf]
  · intro st faults name hdel
    cases hf : mapGet st.files name with
    | none => simp [FsStore.delete, hf, FsStore.get, cacheGet_del]
    | some blob =>
      cases hr : faults.removeFails with
      | true => simp [FsStore.delete, hf, hr] at hdel
      | false => simp [FsStore.delete, hf, hr, FsStore.get, cacheGet_del, mapGet_del]

theorem c9_delete_semantics_witness :
    (MemStore.delete ⟨"", none, ⟨[]⟩, []⟩ "a").2 = none ∧
    ((MemStore.delete ⟨"", none, ⟨[("a", ⟨[1]⟩)]⟩, [("a", "AQ==")]⟩ "a").1.get "a").2
      = .error .keyNotFound ∧
    (FsStore.delete noFaults ⟨"", none, ⟨[]⟩, []⟩ "a").2 = none ∧
    ((FsStore.delete noFaults ⟨"", none, ⟨[("a", ⟨[1]⟩)]⟩, [("a", "AQ==")]⟩ "a").1.get "a").2
      = .error .keyNotFound :=
  ⟨c9_delete_semantics.1 ⟨"", none, ⟨[]⟩, []⟩ "a" rfl,
   c9_delete_semantics.2.1 ⟨"", none, ⟨[("a", ⟨[1]⟩)]⟩, [("a", "AQ==")]⟩ "a",
   c9_delete_semantics.2.2.1 ⟨"", none, ⟨[]⟩, []⟩ noFaults "a" rfl,
   c9_delete_semantics.2.2.2 ⟨"", none, ⟨[("a", ⟨[1]⟩)]⟩, [("a", "AQ==")]⟩ noFaults "a" rfl⟩

/-- Claim C10: the key check of `ReadFrom` is exact string emptiness:
for a key of tame characters — in particular a whitespace-only key such
as a single space — parsing succeeds and the ciphertext carries that key
verbatim; only the literally empty key draws the malformed error. -/
theorem c10_empty_key_check (k : String)
    (hk : ∀ ch ∈ k.data, jsonSafeChar ch)
    (hlen : (serializeData ⟨k, []⟩).length ≤ maxCiphertextSize) :
    ciphertextReadFrom (serializeData ⟨k, []⟩) =
      (if k = "" then .error .malformedCiphertext else .ok ⟨k, []⟩) := by
  have hdec := decode_ser ⟨k, []⟩ [] hk (by simp)
  rw [List.append_nil] at hdec
  rw [ciphertextReadFrom, List.take_of_length_le hlen, hdec]

theorem c10_empty_key_check_witness :
    ciphertextReadFrom (serializeData ⟨" ", []⟩) = .ok ⟨" ", []⟩ ∧
    ciphertextReadFrom (serializeData ⟨"", []⟩) = .error .malformedCiphertext := by
  have h1 := c10_empty_key_check " " (by decide) (by decide)
  have h2 := c10_empty_key_check "" (by decide) (by decide)
  constructor
  · rw [h1, if_neg (by decide : ¬(" " : String) = "")]
  · rw [h2, if_pos rfl]

end Kes
